import Mathlib

/-!
Shallow embedding of the filename-shortening core of rename-for-linux-limit
(src/lib.rs; src/main.rs duplicates the same core).

Strings are modelled as lists of Unicode scalar values — exactly the view
Rust's `char`-based iteration exposes — and byte positions are recovered
through `Char.utf8Size`, the model of Rust's `char::len_utf8`.  The NFD
normaliser (`normalize_str`, from the unicode_normalization crate), the
ignored-tag set and the tag-conversion map are abstract parameters: the
source only ever uses them as a key transform, a membership test and a
lookup, and every property below holds for all instantiations.
-/

/-- Strings as lists of Unicode scalar values. -/
abbrev Str := List Char

/-- UTF-8 byte length of a string, the model of Rust's `str::len` on
`&str` / `as_bytes().len()`. -/
def utf8Len (s : Str) : Nat := (s.map Char.utf8Size).sum

/-- Constant `N_FILENAME_BYTES` of lib.rs line 22. -/
def N_FILENAME_BYTES : Nat := 255

/-- Constant `N_MAX_EXTENSION_BYTES` of lib.rs line 23. -/
def N_MAX_EXTENSION_BYTES : Nat := 5

/-- Decimal digits of a natural number, least significant first.  The
recursion is structural in a fuel argument (any `fuel ≥ n` gives the true
digits) so that the kernel can evaluate it on literals. -/
def nat_digits_aux : Nat → Nat → List Nat
  | 0, _ => []
  | fuel + 1, n => if n = 0 then [] else n % 10 :: nat_digits_aux fuel (n / 10)

/-- Decimal representation of a natural number, the model of Rust's
`format!("{}", n)`. -/
def nat_repr (n : Nat) : Str :=
  if n = 0 then ['0'] else ((nat_digits_aux n n).map Nat.digitChar).reverse

/-- Byte length of the decimal representation of `usize::MAX`
(`"18446744073709551615"`, 20 digits), the constant appearing in the
extension-reserve assertion of lib.rs line 139. -/
def usize_max_repr_len : Nat := utf8Len ("18446744073709551615".data)

/-- Model of `filename.rsplitn(2, '.')` (lib.rs 96-99): `(some rest, tail)`
splits at the last dot, `(none, s)` when `s` contains no dot. -/
def rsplit_dot (s : Str) : Option Str × Str :=
  match s.reverse.dropWhile (fun c => !(c == '.')) with
  | [] => (none, s)
  | _ :: restTail => (some restTail.reverse, (s.reverse.takeWhile (fun c => !(c == '.'))).reverse)

/-- Extension split before the overlength check (lib.rs 101-111): separate a
trailing `.tail`, except when the filename has no dot, or is a dotfile
(empty part before the last dot) in which case the whole filename is the
slug. Returns `(extension?, slug)`. -/
def split_ext_raw (filename : Str) : Option Str × Str :=
  match rsplit_dot filename with
  | (none, e) => (none, e)
  | (some s, e) => if s = [] then (none, '.' :: e) else (some e, s)

/-- Extension split including the overlong-extension fold (lib.rs 113-121):
a tail longer than `N_MAX_EXTENSION_BYTES` is not a real extension and is
folded back into the slug as `slug ++ "." ++ tail`. -/
def split_ext (filename : Str) : Option Str × Str :=
  match split_ext_raw filename with
  | (some e, s) =>
    if N_MAX_EXTENSION_BYTES < utf8Len e then (none, s ++ '.' :: e) else (some e, s)
  | (none, s) => (none, s)

/-- Retry formatting of the extension (lib.rs 123-135): for a positive retry
counter the decimal counter is inserted in front of the extension, or stands
alone when there is none. -/
def format_ext (n : Nat) : Option Str → Option Str
  | some e => if n = 0 then some e else some (nat_repr n ++ '.' :: e)
  | none => if n = 0 then none else some (nat_repr n)

/-- Budget set-up (lib.rs 137-145): reserve the formatted extension plus its
leading dot out of the 255-byte budget.  Rust's `checked_sub(..).expect` is
modelled by truncated subtraction; the assertions guarding it are settled
separately (they hold for every usize retry counter, see the C1 theorem,
and under them the two subtractions agree).  In the no-extension branch the
source feeds the original `filename` (equal to the slug in that branch) to
the splitter, reproduced literally here. -/
def budget_slug_ext (filename : Str) (n : Nat) : Nat × Str × Str :=
  match format_ext n (split_ext filename).1 with
  | some ext => (N_FILENAME_BYTES - (utf8Len ext + 1), (split_ext filename).2, '.' :: ext)
  | none => (N_FILENAME_BYTES, filename, [])

/-- One delimiter-introduced segment of the slug (struct `SlugComponent`,
lib.rs 225-229). -/
structure SlugComponent where
  delimiter : Char
  tag : Str
deriving DecidableEq

/-- Byte cost of a component: tag bytes plus delimiter bytes (`n_bytes`,
lib.rs 232-234). -/
def SlugComponent.n_bytes (c : SlugComponent) : Nat :=
  utf8Len c.tag + c.delimiter.utf8Size

/-- Membership test for the delimiter set `DELIMITERS = ['.']`
(lib.rs 243). -/
def is_delimiter (c : Char) : Bool := c == '.'

/-- Tail-parsing loop of `split_into_components` (lib.rs 265-276): the input
begins at a delimiter occurrence; each delimiter starts a component whose
tag is the text up to the next delimiter.  For every component but the last
the source records the char of the *following* delimiter occurrence in the
`delimiter` field; with the single-element delimiter set `['.']` that char
is always identical to the introducing delimiter recorded here. -/
def parse_tail_aux (d : Char) (acc : Str) : Str → List SlugComponent
  | [] => [⟨d, acc.reverse⟩]
  | c :: rest =>
    if is_delimiter c then ⟨d, acc.reverse⟩ :: parse_tail_aux c [] rest
    else parse_tail_aux d (c :: acc) rest

/-- Components of the slug tail, starting at the first delimiter
occurrence. -/
def parse_tail : Str → List SlugComponent
  | [] => []
  | d :: rest => parse_tail_aux d [] rest

/-- Model of `split_into_components` (lib.rs 245-285): the first character
is never a component boundary, so the leading component runs to the first
delimiter at positive offset; the rest is parsed into components; each tag
is then replaced through the conversion map keyed by its normalised form,
falling back to the unconverted tag. -/
def split_into_components (conv : Str → Option Str) (normalize : Str → Str) (slug : Str) :
    Str × List SlugComponent :=
  match slug with
  | [] => ([], [])
  | c :: rest =>
    (c :: rest.takeWhile (fun ch => !(is_delimiter ch)),
      (parse_tail (rest.dropWhile (fun ch => !(is_delimiter ch)))).map
        (fun comp => ⟨comp.delimiter, (conv (normalize comp.tag)).getD comp.tag⟩))

/-- Character-by-character truncation loop shared by the two truncation
sites (lib.rs 153-159 and 197-203): consume whole characters while each
fits the remaining byte budget, stopping at the first that does not;
returns the remaining budget and the taken prefix. -/
def take_chars_within : Nat → Str → Nat × Str
  | b, [] => (b, [])
  | b, c :: cs =>
    if b < c.utf8Size then (b, [])
    else
      let r := take_chars_within (b - c.utf8Size) cs
      (r.1, c :: r.2)

/-- Stable insertion by the first pair component.  Rust's `Vec::sort_by` on
`(len, index)` pairs comparing only `len` (lib.rs 171) is a stable sort, and
a stable sort's output is uniquely determined by comparator and input, so
the stable insertion sort built from this insertion models it exactly. -/
def insert_by_len (x : Nat × Nat) : List (Nat × Nat) → List (Nat × Nat)
  | [] => [x]
  | y :: ys => if y.1 < x.1 then y :: insert_by_len x ys else x :: y :: ys

/-- Stable sort of the `(len, index)` pairs by ascending `len`. -/
def sort_pairs (l : List (Nat × Nat)) : List (Nat × Nat) := l.foldr insert_by_len []

/-- Selection loop over the sorted `(len, index)` pairs (lib.rs 175-211),
carrying the remaining budget, the already-accepted normalised tags and the
position-indexed output slots (`converted_components`). -/
def alloc_loop (ignored : Str → Bool) (normalize : Str → Str) (comps : List SlugComponent) :
    List (Nat × Nat) → Nat → List Str → List Str → Nat × List Str
  | [], budget, _, slots => (budget, slots)
  | (len, i) :: rest, budget, seen, slots =>
    let comp := comps.getD i ⟨'.', []⟩
    let ntag := normalize comp.tag
    if ignored ntag then alloc_loop ignored normalize comps rest budget seen slots
    else if ntag ∈ seen then alloc_loop ignored normalize comps rest budget seen slots
    else if budget = 0 then (budget, slots)
    else if budget < len then
      if budget < comp.delimiter.utf8Size then (budget, slots)
      else
        let r := take_chars_within (budget - comp.delimiter.utf8Size) comp.tag
        (r.1, slots.set i (comp.delimiter :: r.2))
    else
      alloc_loop ignored normalize comps rest (budget - len) (ntag :: seen)
        (slots.set i (comp.delimiter :: comp.tag))

/-- Output slots computed for the remaining components: the final value of
the `converted_components` vector of lib.rs 174-211, starting from all-empty
slots and the stably sorted `(len, index)` pairs. -/
def alloc_slots (ignored : Str → Bool) (normalize : Str → Str) (budget : Nat)
    (comps : List SlugComponent) : List Str :=
  (alloc_loop ignored normalize comps
    (sort_pairs ((comps.enum).map (fun p => ((p.2).n_bytes, p.1))))
    budget [] (List.replicate comps.length [])).2

/-- Slug assembly (lib.rs 151-217): a leading component larger than the
whole budget is truncated character-wise and every other component dropped;
otherwise it is kept whole and the remaining components' slots are appended
in positional order. -/
def allocate_slug (ignored : Str → Bool) (normalize : Str → Str) (budget : Nat)
    (first : Str) (comps : List SlugComponent) : Str :=
  if budget < utf8Len first then (take_chars_within budget first).2
  else first ++ (alloc_slots ignored normalize (budget - utf8Len first) comps).flatten

/-- Model of `new_candidate_filename` (lib.rs 92-223). -/
def new_candidate_filename (ignored : Str → Bool) (conv : Str → Option Str)
    (normalize : Str → Str) (filename : Str) (n_retries : Nat) : Str :=
  let b := budget_slug_ext filename n_retries
  let fc := split_into_components conv normalize b.2.1
  allocate_slug ignored normalize b.1 fc.1 fc.2 ++ b.2.2

/-- The error enumeration of lib.rs 25-29; `FilenameNotFound` is its only
variant. -/
inductive RenameError
  | filenameNotFound
deriving DecidableEq

/-- Filesystem effects `new_filename_impl` can perform: invoking the
injected existence predicate, and `fs::create_dir_all` on the destination
directory (lib.rs 81). -/
inductive FsEffect
  | checkExists (name : Str)
  | createDirAll
deriving DecidableEq

/-- Outcome of the collision-avoidance driver; `outOfFuel` marks exhaustion
of the explicit fuel that makes Rust's unbounded retry loop total. -/
inductive DriverOutcome
  | ok (name : Str)
  | err (e : RenameError)
  | outOfFuel
deriving DecidableEq

/-- Retry loop of `new_filename_impl` (lib.rs 77-89), with its effect trace:
each iteration creates the destination directory, then asks the existence
predicate about the freshly generated candidate. -/
def driver_loop (ignored : Str → Bool) (conv : Str → Option Str) (normalize : Str → Str)
    (exists_check : Str → Bool) (filename : Str) : Nat → Nat → DriverOutcome × List FsEffect
  | 0, _ => (DriverOutcome.outOfFuel, [])
  | fuel + 1, n =>
    let cand := new_candidate_filename ignored conv normalize filename n
    if exists_check cand then
      let r := driver_loop ignored conv normalize exists_check filename fuel (n + 1)
      (r.1, FsEffect.createDirAll :: FsEffect.checkExists cand :: r.2)
    else
      (DriverOutcome.ok cand, [FsEffect.createDirAll, FsEffect.checkExists cand])

/-- Model of `new_filename_impl` (lib.rs 36-90).  The path argument is
abstracted to its final segment `file_name()` (`none` models a path without
one); `dst_dir_given` states whether an explicit destination directory was
passed (`to_same_dir` is its negation); the existence predicate receives the
candidate filename, the destination directory being fixed throughout a
call.  The config load is outside the model: the ignored-tag set and the
conversion map arrive as parameters. -/
def new_filename_impl (ignored : Str → Bool) (conv : Str → Option Str) (normalize : Str → Str)
    (exists_check : Str → Bool) (filename : Option Str) (dst_dir_given : Bool) (fuel : Nat) :
    DriverOutcome × List FsEffect :=
  match filename with
  | none => (DriverOutcome.err RenameError.filenameNotFound, [])
  | some f =>
    if utf8Len f ≤ N_FILENAME_BYTES then
      if !dst_dir_given then (DriverOutcome.ok f, [])
      else if !(exists_check f) then (DriverOutcome.ok f, [FsEffect.checkExists f])
      else
        let r := driver_loop ignored conv normalize exists_check f fuel 0
        (r.1, FsEffect.checkExists f :: r.2)
    else driver_loop ignored conv normalize exists_check f fuel 0

/-- Specification-side stable sort of the position-indexed remaining
components, following the spec's words: sort by ascending byte length
(tag plus delimiter), ties broken by original position (stable sort). -/
def spec_insert_component (x : Nat × SlugComponent) :
    List (Nat × SlugComponent) → List (Nat × SlugComponent)
  | [] => [x]
  | y :: ys =>
    if (y.2).n_bytes < (x.2).n_bytes then y :: spec_insert_component x ys else x :: y :: ys

/-- Specification-side stable sort (see `spec_insert_component`). -/
def spec_sort_components (l : List (Nat × SlugComponent)) : List (Nat × SlugComponent) :=
  l.foldr spec_insert_component []

/-- Specification-side selection scan, following the spec's words: in sorted
order, skip a component whose normalised tag is ignored or already seen
without touching the budget; stop scanning at budget exactly 0; a component
whose full byte cost exceeds the remaining budget is partially emitted (the
delimiter if it fits, then whole characters of the tag while they fit) into
its positional slot and the scan stops; otherwise the component is emitted
whole, the budget decreases by its cost and its normalised tag is marked
seen. -/
def spec_scan (ignored : Str → Bool) (normalize : Str → Str) :
    List (Nat × SlugComponent) → Nat → List Str → List (Option Str) → List (Option Str)
  | [], _, _, slots => slots
  | (i, c) :: rest, budget, seen, slots =>
    let ntag := normalize c.tag
    if ignored ntag then spec_scan ignored normalize rest budget seen slots
    else if ntag ∈ seen then spec_scan ignored normalize rest budget seen slots
    else if budget = 0 then slots
    else if budget < c.n_bytes then
      if budget < c.delimiter.utf8Size then slots
      else
        slots.set i
          (some (c.delimiter :: (take_chars_within (budget - c.delimiter.utf8Size) c.tag).2))
    else
      spec_scan ignored normalize rest (budget - c.n_bytes) (ntag :: seen)
        (slots.set i (some (c.delimiter :: c.tag)))

/-- Specification-side remaining-component assembly: fill a position-indexed
array of optional output slots during the priority pass, then join in index
order, a component skipped or never reached contributing the empty
string. -/
def spec_remaining (ignored : Str → Bool) (normalize : Str → Str) (budget : Nat)
    (comps : List SlugComponent) : Str :=
  ((spec_scan ignored normalize (spec_sort_components comps.enum) budget []
      (List.replicate comps.length none)).map (fun o => o.getD [])).flatten

/-- Helper used only in proofs: the suffix of a string after its last dot. -/
def after_last_dot (s : Str) : Str :=
  (s.reverse.takeWhile (fun c => !(c == '.'))).reverse

theorem utf8Len_nil : utf8Len [] = 0 := rfl

theorem utf8Len_cons (c : Char) (s : Str) : utf8Len (c :: s) = c.utf8Size + utf8Len s := by
  simp [utf8Len]

theorem utf8Len_append (a b : Str) : utf8Len (a ++ b) = utf8Len a + utf8Len b := by
  simp [utf8Len]

theorem utf8Len_flatten (l : List Str) : utf8Len l.flatten = (l.map utf8Len).sum := by
  induction l with
  | nil => rfl
  | cons x xs ih => simp [utf8Len_append, ih]

theorem take_chars_within_budget (s : Str) :
    ∀ b, (take_chars_within b s).1 + utf8Len (take_chars_within b s).2 = b := by
  induction s with
  | nil => intro b; simp [take_chars_within, utf8Len]
  | cons c cs ih =>
    intro b
    by_cases h : b < c.utf8Size
    · simp [take_chars_within, h, utf8Len]
    · simp only [take_chars_within, if_neg h, utf8Len_cons]
      have := ih (b - c.utf8Size)
      omega

theorem take_chars_within_le (b : Nat) (s : Str) : utf8Len (take_chars_within b s).2 ≤ b := by
  have := take_chars_within_budget s b
  omega

theorem take_chars_within_decomp (s : Str) :
    ∀ b, ∃ rest, s = (take_chars_within b s).2 ++ rest ∧
      ∀ c cs, rest = c :: cs → (take_chars_within b s).1 < c.utf8Size := by
  induction s with
  | nil =>
    intro b
    exact ⟨[], by simp [take_chars_within], fun c cs h => by cases h⟩
  | cons c cs ih =>
    intro b
    by_cases h : b < c.utf8Size
    · refine ⟨c :: cs, by simp [take_chars_within, h], ?_⟩
      intro d ds hd
      simp only [take_chars_within, if_pos h]
      cases hd
      exact h
    · obtain ⟨rest, hr1, hr2⟩ := ih (b - c.utf8Size)
      refine ⟨rest, ?_, ?_⟩
      · simp only [take_chars_within, if_neg h]
        exact congrArg (c :: ·) hr1
      · intro d ds hd
        simp only [take_chars_within, if_neg h]
        exact hr2 d ds hd

theorem sum_map_set_le (f : Str → Nat) (l : List Str) :
    ∀ (i : Nat) (a : Str), ((l.set i a).map f).sum ≤ (l.map f).sum + f a := by
  induction l with
  | nil => intro i a; simp
  | cons x xs ih =>
    intro i a
    cases i with
    | zero => simp [List.set]; omega
    | succ j =>
      simp only [List.set, List.map_cons, List.sum_cons]
      have := ih j a
      omega

theorem getD_set_ne (l : List Str) (i j : Nat) (a d : Str) (h : i ≠ j) :
    (l.set i a).getD j d = l.getD j d := by
  simp [List.getD_eq_getElem?_getD, List.getElem?_set_ne h]

theorem getD_replicate_empty (n i : Nat) : (List.replicate n ([] : Str)).getD i [] = [] := by
  simp only [List.getD_eq_getElem?_getD, List.getElem?_replicate]
  split <;> rfl

theorem mem_insert_by_len (x z : Nat × Nat) (l : List (Nat × Nat)) :
    z ∈ insert_by_len x l ↔ z = x ∨ z ∈ l := by
  induction l with
  | nil => simp [insert_by_len]
  | cons y ys ih =>
    by_cases h : y.1 < x.1
    · simp only [insert_by_len, if_pos h, List.mem_cons, ih]
      tauto
    · simp only [insert_by_len, if_neg h, List.mem_cons]

theorem mem_sort_pairs (z : Nat × Nat) (l : List (Nat × Nat)) :
    z ∈ sort_pairs l ↔ z ∈ l := by
  induction l with
  | nil => simp [sort_pairs]
  | cons x xs ih =>
    show z ∈ insert_by_len x (sort_pairs xs) ↔ _
    rw [mem_insert_by_len, ih]
    simp

theorem mem_spec_insert (x z : Nat × SlugComponent) (l : List (Nat × SlugComponent)) :
    z ∈ spec_insert_component x l ↔ z = x ∨ z ∈ l := by
  induction l with
  | nil => simp [spec_insert_component]
  | cons y ys ih =>
    by_cases h : (y.2).n_bytes < (x.2).n_bytes
    · simp only [spec_insert_component, if_pos h, List.mem_cons, ih]
      tauto
    · simp only [spec_insert_component, if_neg h, List.mem_cons]

theorem mem_spec_sort (z : Nat × SlugComponent) (l : List (Nat × SlugComponent)) :
    z ∈ spec_sort_components l ↔ z ∈ l := by
  induction l with
  | nil => simp [spec_sort_components]
  | cons x xs ih =>
    show z ∈ spec_insert_component x (spec_sort_components xs) ↔ _
    rw [mem_spec_insert, ih]
    simp

theorem enum_getD {α : Type} (l : List α) (i : Nat) (c d : α) (h : (i, c) ∈ l.enum) :
    l.getD i d = c := by
  obtain ⟨-, h2, h3⟩ := List.mem_enumFrom (by simpa [List.enum] using h)
  simp only [Nat.sub_zero] at h3
  rw [List.getD_eq_getElem?_getD, List.getElem?_eq_getElem (by omega), h3]
  rfl

theorem nat_digits_aux_lt (fuel : Nat) : ∀ n d, d ∈ nat_digits_aux fuel n → d < 10 := by
  induction fuel with
  | zero => intro n d h; simp [nat_digits_aux] at h
  | succ k ih =>
    intro n d h
    by_cases h0 : n = 0
    · simp [nat_digits_aux, h0] at h
    · simp only [nat_digits_aux, if_neg h0, List.mem_cons] at h
      rcases h with h | h
      · omega
      · exact ih _ _ h

theorem nat_digits_aux_len (k : Nat) : ∀ fuel n, n < 10 ^ k → (nat_digits_aux fuel n).length ≤ k := by
  induction k with
  | zero =>
    intro fuel n h
    have h0 : n = 0 := by simpa using h
    subst h0
    cases fuel <;> simp [nat_digits_aux]
  | succ k ih =>
    intro fuel n h
    cases fuel with
    | zero => simp [nat_digits_aux]
    | succ fl =>
      by_cases h0 : n = 0
      · simp [nat_digits_aux, h0]
      · simp only [nat_digits_aux, if_neg h0, List.length_cons]
        have hdiv : n / 10 < 10 ^ k := by
          rw [Nat.div_lt_iff_lt_mul (by norm_num)]
          calc n < 10 ^ (k + 1) := h
          _ = 10 ^ k * 10 := by ring
        have := ih fl (n / 10) hdiv
        omega

theorem nat_repr_len_le (n : Nat) (h : n < 2 ^ 64) : (nat_repr n).length ≤ 20 := by
  unfold nat_repr
  split_ifs with h0
  · simp
  · simp only [List.length_reverse, List.length_map]
    exact nat_digits_aux_len 20 n n (lt_trans h (by norm_num))

theorem utf8Len_all_one (s : Str) (h : ∀ c ∈ s, c.utf8Size = 1) : utf8Len s = s.length := by
  induction s with
  | nil => rfl
  | cons c cs ih =>
    rw [utf8Len_cons, h c (by simp), ih (fun c' hc => h c' (by simp [hc])), List.length_cons]
    omega

theorem digitChar_utf8Size : ∀ d, d < 10 → (Nat.digitChar d).utf8Size = 1 := by decide

theorem digitChar_ne_dot : ∀ d, d < 10 → ((Nat.digitChar d) == '.') = false := by decide

theorem digitChar_inj : ∀ a, a < 10 → ∀ b, b < 10 → Nat.digitChar a = Nat.digitChar b → a = b := by
  decide

theorem nat_repr_utf8Len (n : Nat) : utf8Len (nat_repr n) = (nat_repr n).length := by
  apply utf8Len_all_one
  intro c hc
  unfold nat_repr at hc
  split_ifs at hc with h0
  · simp at hc
    subst hc
    decide
  · simp only [List.mem_reverse, List.mem_map] at hc
    obtain ⟨d, hd, rfl⟩ := hc
    exact digitChar_utf8Size d (nat_digits_aux_lt _ _ _ hd)

theorem nat_repr_no_dot (n : Nat) : ∀ c ∈ nat_repr n, (c == '.') = false := by
  intro c hc
  unfold nat_repr at hc
  split_ifs at hc with h0
  · simp at hc
    subst hc
    decide
  · simp only [List.mem_reverse, List.mem_map] at hc
    obtain ⟨d, hd, rfl⟩ := hc
    exact digitChar_ne_dot d (nat_digits_aux_lt _ _ _ hd)

theorem nat_digits_aux_ofDigits : ∀ fuel n, n ≤ fuel → Nat.ofDigits 10 (nat_digits_aux fuel n) = n := by
  intro fuel
  induction fuel with
  | zero =>
    intro n h
    have h0 : n = 0 := by omega
    subst h0
    simp [nat_digits_aux, Nat.ofDigits_nil]
  | succ k ih =>
    intro n h
    by_cases h0 : n = 0
    · simp [nat_digits_aux, h0, Nat.ofDigits_nil]
    · have hdiv : n / 10 ≤ k := by
        have := Nat.div_lt_self (Nat.pos_of_ne_zero h0) (by norm_num : (1 : Nat) < 10)
        omega
      simp only [nat_digits_aux, if_neg h0, Nat.ofDigits_cons, ih (n / 10) hdiv, Nat.cast_id]
      omega

theorem digit_map_inj : ∀ (ds es : List Nat), (∀ d ∈ ds, d < 10) → (∀ d ∈ es, d < 10) →
    ds.map Nat.digitChar = es.map Nat.digitChar → ds = es := by
  intro ds
  induction ds with
  | nil =>
    intro es _ _ h
    cases es with
    | nil => rfl
    | cons e es' => simp at h
  | cons d ds' ih =>
    intro es h1 h2 h
    cases es with
    | nil => simp at h
    | cons e es' =>
      simp only [List.map_cons, List.cons.injEq] at h
      obtain ⟨hde, hrest⟩ := h
      have hd := digitChar_inj d (h1 d (by simp)) e (h2 e (by simp)) hde
      subst hd
      rw [ih es' (fun x hx => h1 x (by simp [hx])) (fun x hx => h2 x (by simp [hx])) hrest]

theorem nat_repr_inj (m n : Nat) (hm : 0 < m) (hn : 0 < n) (h : nat_repr m = nat_repr n) : m = n := by
  unfold nat_repr at h
  rw [if_neg (by omega), if_neg (by omega)] at h
  have h2 := List.reverse_injective h
  have h3 := digit_map_inj _ _ (fun d hd => nat_digits_aux_lt _ _ _ hd)
    (fun d hd => nat_digits_aux_lt _ _ _ hd) h2
  have e1 := nat_digits_aux_ofDigits m m (le_refl m)
  have e2 := nat_digits_aux_ofDigits n n (le_refl n)
  rw [h3] at e1
  omega

theorem takeWhile_all_append (p : Char → Bool) (xs ys : Str) (y : Char)
    (hx : ∀ x ∈ xs, p x = true) (hy : p y = false) :
    (xs ++ y :: ys).takeWhile p = xs := by
  induction xs with
  | nil => simp [List.takeWhile_cons, hy]
  | cons a as ih =>
    simp only [List.cons_append, List.takeWhile_cons, hx a (by simp), if_true]
    rw [ih (fun x hmem => hx x (by simp [hmem]))]

theorem dropWhile_all_append (p : Char → Bool) (xs ys : Str) (y : Char)
    (hx : ∀ x ∈ xs, p x = true) (hy : p y = false) :
    (xs ++ y :: ys).dropWhile p = y :: ys := by
  induction xs with
  | nil => simp [List.dropWhile_cons, hy]
  | cons a as ih =>
    simp only [List.cons_append, List.dropWhile_cons, hx a (by simp), if_true]
    exact ih (fun x hmem => hx x (by simp [hmem]))

theorem rsplit_dot_append (a b : Str) (hb : ∀ c ∈ b, (c == '.') = false) :
    rsplit_dot (a ++ '.' :: b) = (some a, b) := by
  unfold rsplit_dot
  have hrev : (a ++ '.' :: b).reverse = b.reverse ++ '.' :: a.reverse := by
    simp
  rw [hrev]
  rw [dropWhile_all_append _ _ _ _
    (fun c hc => by simp [hb c (List.mem_reverse.mp hc)]) (by simp),
    takeWhile_all_append _ _ _ _
    (fun c hc => by simp [hb c (List.mem_reverse.mp hc)]) (by simp)]
  simp

theorem after_last_dot_append (a b : Str) (hb : ∀ c ∈ b, (c == '.') = false) :
    after_last_dot (a ++ '.' :: b) = b := by
  unfold after_last_dot
  have hrev : (a ++ '.' :: b).reverse = b.reverse ++ '.' :: a.reverse := by
    simp
  rw [hrev, takeWhile_all_append _ _ _ _
    (fun c hc => by simp [hb c (List.mem_reverse.mp hc)]) (by simp),
    List.reverse_reverse]

theorem split_ext_overlong (a b : Str) (hb : ∀ c ∈ b, (c == '.') = false)
    (hlen : N_MAX_EXTENSION_BYTES < utf8Len b) :
    split_ext (a ++ '.' :: b) = (none, a ++ '.' :: b) := by
  unfold split_ext split_ext_raw
  rw [rsplit_dot_append a b hb]
  by_cases ha : a = []
  · subst ha
    simp
  · simp [ha, hlen]

theorem split_ext_some_le (f : Str) (e : Str) (h : (split_ext f).1 = some e) :
    utf8Len e ≤ N_MAX_EXTENSION_BYTES := by
  unfold split_ext at h
  rcases hr : split_ext_raw f with ⟨o, s⟩
  rw [hr] at h
  cases o with
  | none => simp at h
  | some e' =>
    by_cases h5 : N_MAX_EXTENSION_BYTES < utf8Len e'
    · simp [h5] at h
    · simp only [if_neg h5, Option.some.injEq] at h
      cases h
      omega

theorem alloc_loop_budget (ign : Str → Bool) (nz : Str → Str) (comps : List SlugComponent) :
    ∀ (pairs : List (Nat × Nat)) (budget : Nat) (seen : List Str) (slots : List Str),
      (∀ p ∈ pairs, p.1 = (comps.getD p.2 ⟨'.', []⟩).n_bytes) →
      (alloc_loop ign nz comps pairs budget seen slots).1 +
        ((alloc_loop ign nz comps pairs budget seen slots).2.map utf8Len).sum ≤
        budget + (slots.map utf8Len).sum := by
  intro pairs
  induction pairs with
  | nil => intro budget seen slots _; simp [alloc_loop]
  | cons p rest ih =>
    obtain ⟨len, i⟩ := p
    intro budget seen slots H
    have Hhead : len = (comps.getD i ⟨'.', []⟩).n_bytes := H (len, i) (List.mem_cons_self _ _)
    have Hrest : ∀ q ∈ rest, q.1 = (comps.getD q.2 ⟨'.', []⟩).n_bytes :=
      fun q hq => H q (List.mem_cons_of_mem _ hq)
    by_cases h1 : ign (nz (comps.getD i ⟨'.', []⟩).tag) = true
    · simp only [alloc_loop, if_pos h1]
      exact ih budget seen slots Hrest
    · by_cases h2 : nz (comps.getD i ⟨'.', []⟩).tag ∈ seen
      · simp only [alloc_loop, if_neg h1, if_pos h2]
        exact ih budget seen slots Hrest
      · by_cases h3 : budget = 0
        · simp only [alloc_loop, if_neg h1, if_neg h2, if_pos h3]
          exact le_refl _
        · by_cases h4 : budget < len
          · by_cases h5 : budget < (comps.getD i ⟨'.', []⟩).delimiter.utf8Size
            · simp only [alloc_loop, if_neg h1, if_neg h2, if_neg h3, if_pos h4, if_pos h5]
              exact le_refl _
            · simp only [alloc_loop, if_neg h1, if_neg h2, if_neg h3, if_pos h4, if_neg h5]
              have htcw := take_chars_within_budget (comps.getD i ⟨'.', []⟩).tag
                (budget - (comps.getD i ⟨'.', []⟩).delimiter.utf8Size)
              have hset := sum_map_set_le utf8Len slots i
                ((comps.getD i ⟨'.', []⟩).delimiter ::
                  (take_chars_within (budget - (comps.getD i ⟨'.', []⟩).delimiter.utf8Size)
                    (comps.getD i ⟨'.', []⟩).tag).2)
              rw [utf8Len_cons] at hset
              omega
          · simp only [alloc_loop, if_neg h1, if_neg h2, if_neg h3, if_neg h4]
            have hrec := ih (budget - len) (nz (comps.getD i ⟨'.', []⟩).tag :: seen)
              (slots.set i ((comps.getD i ⟨'.', []⟩).delimiter :: (comps.getD i ⟨'.', []⟩).tag))
              Hrest
            have hset := sum_map_set_le utf8Len slots i
              ((comps.getD i ⟨'.', []⟩).delimiter :: (comps.getD i ⟨'.', []⟩).tag)
            rw [utf8Len_cons] at hset
            have hnb : (comps.getD i ⟨'.', []⟩).n_bytes =
                utf8Len (comps.getD i ⟨'.', []⟩).tag +
                  (comps.getD i ⟨'.', []⟩).delimiter.utf8Size := rfl
            omega

theorem alloc_slots_sum_le (ign : Str → Bool) (nz : Str → Str) (budget : Nat)
    (comps : List SlugComponent) :
    ((alloc_slots ign nz budget comps).map utf8Len).sum ≤ budget := by
  have H : ∀ p ∈ sort_pairs ((comps.enum).map (fun p => ((p.2).n_bytes, p.1))),
      p.1 = (comps.getD p.2 ⟨'.', []⟩).n_bytes := by
    intro p hp
    rw [mem_sort_pairs] at hp
    obtain ⟨⟨i, c⟩, hmem, rfl⟩ := List.mem_map.mp hp
    exact congrArg SlugComponent.n_bytes (enum_getD comps i c _ hmem).symm
  have hinv := alloc_loop_budget ign nz comps
    (sort_pairs ((comps.enum).map (fun p => ((p.2).n_bytes, p.1))))
    budget [] (List.replicate comps.length []) H
  have hz : ((List.replicate comps.length ([] : Str)).map utf8Len).sum = 0 := by
    simp [List.map_replicate, utf8Len]
  unfold alloc_slots
  omega

theorem allocate_slug_le (ign : Str → Bool) (nz : Str → Str) (budget : Nat)
    (first : Str) (comps : List SlugComponent) :
    utf8Len (allocate_slug ign nz budget first comps) ≤ budget := by
  unfold allocate_slug
  split_ifs with h
  · exact take_chars_within_le _ _
  · rw [utf8Len_append, utf8Len_flatten]
    have := alloc_slots_sum_le ign nz (budget - utf8Len first) comps
    omega

theorem alloc_loop_ignored_slot (ign : Str → Bool) (nz : Str → Str)
    (comps : List SlugComponent) (i : Nat)
    (hig : ign (nz ((comps.getD i ⟨'.', []⟩).tag)) = true) :
    ∀ (pairs : List (Nat × Nat)) (budget : Nat) (seen : List Str) (slots : List Str),
      ((alloc_loop ign nz comps pairs budget seen slots).2).getD i [] = slots.getD i [] := by
  intro pairs
  induction pairs with
  | nil => intro budget seen slots; simp [alloc_loop]
  | cons p rest ih =>
    obtain ⟨len, j⟩ := p
    intro budget seen slots
    by_cases h1 : ign (nz (comps.getD j ⟨'.', []⟩).tag) = true
    · simp only [alloc_loop, if_pos h1]
      exact ih budget seen slots
    · have hij : j ≠ i := by
        intro e
        subst e
        exact h1 hig
      by_cases h2 : nz (comps.getD j ⟨'.', []⟩).tag ∈ seen
      · simp only [alloc_loop, if_neg h1, if_pos h2]
        exact ih budget seen slots
      · by_cases h3 : budget = 0
        · simp only [alloc_loop, if_neg h1, if_neg h2, if_pos h3]
        · by_cases h4 : budget < len
          · by_cases h5 : budget < (comps.getD j ⟨'.', []⟩).delimiter.utf8Size
            · simp only [alloc_loop, if_neg h1, if_neg h2, if_neg h3, if_pos h4, if_pos h5]
            · simp only [alloc_loop, if_neg h1, if_neg h2, if_neg h3, if_pos h4, if_neg h5]
              exact getD_set_ne _ _ _ _ _ hij
          · simp only [alloc_loop, if_neg h1, if_neg h2, if_neg h3, if_neg h4]
            rw [ih]
            exact getD_set_ne _ _ _ _ _ hij

theorem insert_map_commute (x : Nat × SlugComponent) (l : List (Nat × SlugComponent)) :
    insert_by_len ((x.2).n_bytes, x.1) (l.map (fun p => ((p.2).n_bytes, p.1))) =
      (spec_insert_component x l).map (fun p => ((p.2).n_bytes, p.1)) := by
  induction l with
  | nil => rfl
  | cons y ys ih =>
    by_cases h : (y.2).n_bytes < (x.2).n_bytes
    · simp only [List.map_cons, insert_by_len, spec_insert_component, if_pos h, ih]
    · simp only [List.map_cons, insert_by_len, spec_insert_component, if_neg h]

theorem sort_map_commute (l : List (Nat × SlugComponent)) :
    sort_pairs (l.map (fun p => ((p.2).n_bytes, p.1))) =
      (spec_sort_components l).map (fun p => ((p.2).n_bytes, p.1)) := by
  induction l with
  | nil => rfl
  | cons x xs ih =>
    show insert_by_len ((x.2).n_bytes, x.1) (sort_pairs (xs.map _)) = _
    rw [ih, insert_map_commute]
    rfl

theorem alloc_scan_equiv (ign : Str → Bool) (nz : Str → Str) (comps : List SlugComponent) :
    ∀ (pairs : List (Nat × SlugComponent)) (budget : Nat) (seen : List Str)
      (slots : List (Option Str)),
      (∀ p ∈ pairs, comps.getD p.1 ⟨'.', []⟩ = p.2) →
      (alloc_loop ign nz comps (pairs.map (fun p => ((p.2).n_bytes, p.1))) budget seen
        (slots.map (fun o => o.getD []))).2 =
      (spec_scan ign nz pairs budget seen slots).map (fun o => o.getD []) := by
  intro pairs
  induction pairs with
  | nil => intro budget seen slots _; simp [alloc_loop, spec_scan]
  | cons p rest ih =>
    obtain ⟨i, c⟩ := p
    intro budget seen slots H
    have Hhead : comps.getD i ⟨'.', []⟩ = c := H (i, c) (List.mem_cons_self _ _)
    have Hrest : ∀ q ∈ rest, comps.getD q.1 ⟨'.', []⟩ = q.2 :=
      fun q hq => H q (List.mem_cons_of_mem _ hq)
    simp only [List.map_cons]
    by_cases h1 : ign (nz c.tag) = true
    · simp only [alloc_loop, spec_scan, Hhead, if_pos h1]
      exact ih budget seen slots Hrest
    · by_cases h2 : nz c.tag ∈ seen
      · simp only [alloc_loop, spec_scan, Hhead, if_neg h1, if_pos h2]
        exact ih budget seen slots Hrest
      · by_cases h3 : budget = 0
        · simp only [alloc_loop, spec_scan, Hhead, if_neg h1, if_neg h2, if_pos h3]
        · by_cases h4 : budget < (c.n_bytes)
          · by_cases h5 : budget < c.delimiter.utf8Size
            · simp only [alloc_loop, spec_scan, Hhead, if_neg h1, if_neg h2, if_neg h3,
                if_pos h4, if_pos h5]
            · simp only [alloc_loop, spec_scan, Hhead, if_neg h1, if_neg h2, if_neg h3,
                if_pos h4, if_neg h5, List.map_set, Option.getD_some]
          · simp only [alloc_loop, spec_scan, Hhead, if_neg h1, if_neg h2, if_neg h3, if_neg h4]
            have hms := List.map_set (f := fun o => o.getD ([] : Str)) (l := slots) (i := i)
              (a := some (c.delimiter :: c.tag))
            simp only [Option.getD_some] at hms
            rw [← hms]
            exact ih (budget - c.n_bytes) (nz c.tag :: seen)
              (slots.set i (some (c.delimiter :: c.tag))) Hrest

theorem cand_pos_decomp (ign : Str → Bool) (conv : Str → Option Str) (nz : Str → Str)
    (f : Str) (k : Nat) (hk : k ≠ 0) :
    ∃ A, new_candidate_filename ign conv nz f k =
      (A ++ '.' :: nat_repr k) ++
        (match (split_ext f).1 with | some t => '.' :: t | none => []) := by
  cases hs : (split_ext f).1 with
  | none =>
    refine ⟨allocate_slug ign nz (N_FILENAME_BYTES - (utf8Len (nat_repr k) + 1))
      (split_into_components conv nz (split_ext f).2).1
      (split_into_components conv nz (split_ext f).2).2, ?_⟩
    simp only [new_candidate_filename, budget_slug_ext, hs, format_ext, if_neg hk,
      List.append_nil]
  | some t =>
    refine ⟨allocate_slug ign nz (N_FILENAME_BYTES - (utf8Len (nat_repr k ++ '.' :: t) + 1))
      (split_into_components conv nz (split_ext f).2).1
      (split_into_components conv nz (split_ext f).2).2, ?_⟩
    simp only [new_candidate_filename, budget_slug_ext, hs, format_ext, if_neg hk,
      List.append_assoc]
    rfl

theorem format_ext_guard (f : Str) (n : Nat) (hn : n < 2 ^ 64) (e : Str)
    (he : format_ext n (split_ext f).1 = some e) :
    utf8Len e + 1 ≤ usize_max_repr_len + N_MAX_EXTENSION_BYTES + 2 ∧
    utf8Len e + 1 ≤ N_FILENAME_BYTES := by
  have hrep : utf8Len (nat_repr n) ≤ 20 := by
    rw [nat_repr_utf8Len]
    exact nat_repr_len_le n hn
  have h20 : usize_max_repr_len = 20 := by decide
  have h5 : N_MAX_EXTENSION_BYTES = 5 := rfl
  have h255 : N_FILENAME_BYTES = 255 := rfl
  cases hs : (split_ext f).1 with
  | some t =>
    have ht := split_ext_some_le f t hs
    rw [hs] at he
    unfold format_ext at he
    split_ifs at he with h0
    · cases he
      omega
    · simp only [Option.some.injEq] at he
      subst he
      rw [utf8Len_append, utf8Len_cons]
      have : ('.').utf8Size = 1 := rfl
      omega
  | none =>
    rw [hs] at he
    unfold format_ext at he
    split_ifs at he with h0
    simp only [Option.some.injEq] at he
    subst he
    omega

/-- Shape of a retry-loop effect trace starting at counter `n`: zero or more
iterations, each one `createDirAll` on the destination directory followed by
the existence check of that iteration's candidate. -/
inductive LoopTraceShape (cand : Nat → Str) : Nat → List FsEffect → Prop
  | nil (n : Nat) : LoopTraceShape cand n []
  | step (n : Nat) (tr : List FsEffect) : LoopTraceShape cand (n + 1) tr →
      LoopTraceShape cand n (FsEffect.createDirAll :: FsEffect.checkExists (cand n) :: tr)

theorem driver_loop_trace_shape (ign : Str → Bool) (conv : Str → Option Str) (nz : Str → Str)
    (ex : Str → Bool) (f : Str) :
    ∀ (fuel n : Nat),
      LoopTraceShape (fun k => new_candidate_filename ign conv nz f k) n
        (driver_loop ign conv nz ex f fuel n).2 := by
  intro fuel
  induction fuel with
  | zero => intro n; exact LoopTraceShape.nil n
  | succ fl ih =>
    intro n
    by_cases h : ex (new_candidate_filename ign conv nz f n) = true
    · simp only [driver_loop, if_pos h]
      exact LoopTraceShape.step n _ (ih (n + 1))
    · simp only [driver_loop, if_neg h]
      exact LoopTraceShape.step n [] (LoopTraceShape.nil (n + 1))

theorem driver_loop_ok_not_exists (ign : Str → Bool) (conv : Str → Option Str) (nz : Str → Str)
    (ex : Str → Bool) (f : Str) :
    ∀ (fuel n : Nat) (c : Str),
      (driver_loop ign conv nz ex f fuel n).1 = DriverOutcome.ok c → ex c = false := by
  intro fuel
  induction fuel with
  | zero => intro n c h; cases h
  | succ fl ih =>
    intro n c h
    by_cases hx : ex (new_candidate_filename ign conv nz f n) = true
    · simp only [driver_loop, if_pos hx] at h
      exact ih (n + 1) c h
    · simp only [driver_loop, if_neg hx] at h
      cases h
      exact Bool.not_eq_true _ ▸ Bool.of_not_eq_true hx

theorem driver_loop_ne_err (ign : Str → Bool) (conv : Str → Option Str) (nz : Str → Str)
    (ex : Str → Bool) (f : Str) :
    ∀ (fuel n : Nat) (e : RenameError),
      (driver_loop ign conv nz ex f fuel n).1 ≠ DriverOutcome.err e := by
  intro fuel
  induction fuel with
  | zero => intro n e h; cases h
  | succ fl ih =>
    intro n e h
    by_cases hx : ex (new_candidate_filename ign conv nz f n) = true
    · simp only [driver_loop, if_pos hx] at h
      exact ih (n + 1) e h
    · simp only [driver_loop, if_neg hx] at h
      cases h

/-- C1: for every non-empty filename, every ignored-tag set, conversion map
and normaliser, and every retry counter representable in Rust's `usize`
(`n < 2 ^ 64`), the two extension-reserve assertions of lib.rs 139-140 hold
— the reserve is at most `usize::MAX`-repr-length + 5 + 2 bytes and at most
255 bytes, so the checked subtraction of line 141 cannot underflow — and the
final assertion of line 221 holds: the candidate produced by
`new_candidate_filename` is at most 255 UTF-8 bytes. -/
theorem candidate_length_bound_c1 (ign : Str → Bool) (conv : Str → Option Str)
    (nz : Str → Str) (f : Str) (n : Nat) (_hf : f ≠ []) (hn : n < 2 ^ 64) :
    (∀ e, format_ext n (split_ext f).1 = some e →
      utf8Len e + 1 ≤ usize_max_repr_len + N_MAX_EXTENSION_BYTES + 2 ∧
      utf8Len e + 1 ≤ N_FILENAME_BYTES) ∧
    utf8Len (new_candidate_filename ign conv nz f n) ≤ N_FILENAME_BYTES := by
  refine ⟨fun e he => format_ext_guard f n hn e he, ?_⟩
  cases he : format_ext n (split_ext f).1 with
  | none =>
    simp only [new_candidate_filename, budget_slug_ext, he, List.append_nil]
    exact allocate_slug_le _ _ _ _ _
  | some e =>
    have hg := (format_ext_guard f n hn e he).2
    simp only [new_candidate_filename, budget_slug_ext, he]
    rw [utf8Len_append, utf8Len_cons]
    have ha := allocate_slug_le ign nz (N_FILENAME_BYTES - (utf8Len e + 1))
      (split_into_components conv nz (split_ext f).2).1
      (split_into_components conv nz (split_ext f).2).2
    have hdot : ('.').utf8Size = 1 := rfl
    have h255 : N_FILENAME_BYTES = 255 := rfl
    omega

/-- C1 witness: the bound and the guards evaluated at the concrete input
`"a.txt"` with retry counter 1. -/
theorem candidate_length_bound_c1_witness :
    (∀ e, format_ext 1 (split_ext ("a.txt".data)).1 = some e →
      utf8Len e + 1 ≤ usize_max_repr_len + N_MAX_EXTENSION_BYTES + 2 ∧
      utf8Len e + 1 ≤ N_FILENAME_BYTES) ∧
    utf8Len (new_candidate_filename (fun _ => false) (fun _ => none) (fun s => s)
      ("a.txt".data) 1) ≤ N_FILENAME_BYTES :=
  candidate_length_bound_c1 (fun _ => false) (fun _ => none) (fun s => s)
    ("a.txt".data) 1 (by decide) (by decide)

/-- C2: when the first component fits the budget, the code's allocator over
the remaining components (stable shortest-first selection with ignore,
duplicate-skip, stop at zero budget, one partial emission then stop, and
positional reassembly) coincides with the specification-side description
`spec_remaining` written from the spec's words. -/
theorem allocator_refines_spec_c2 (ign : Str → Bool) (nz : Str → Str) (budget : Nat)
    (first : Str) (comps : List SlugComponent) (h : ¬ budget < utf8Len first) :
    allocate_slug ign nz budget first comps =
      first ++ spec_remaining ign nz (budget - utf8Len first) comps := by
  unfold allocate_slug
  rw [if_neg h]
  congr 1
  unfold alloc_slots spec_remaining
  rw [sort_map_commute comps.enum]
  have hH : ∀ p ∈ spec_sort_components comps.enum, comps.getD p.1 ⟨'.', []⟩ = p.2 := by
    intro p hp
    rw [mem_spec_sort] at hp
    obtain ⟨i, c⟩ := p
    exact enum_getD comps i c _ hp
  have hinit : (List.replicate comps.length ([] : Str)) =
      (List.replicate comps.length (none : Option Str)).map (fun o => o.getD []) := by
    simp [List.map_replicate]
  rw [hinit, alloc_scan_equiv ign nz comps (spec_sort_components comps.enum)
    (budget - utf8Len first) [] (List.replicate comps.length none) hH]

/-- C2 witness: the refinement evaluated at a concrete allocation with a
duplicate tag, an undersized budget and a partial emission. -/
theorem allocator_refines_spec_c2_witness :
    allocate_slug (fun _ => false) (fun s => s) 12 ("first".data)
      [⟨'.', ("bbb".data)⟩, ⟨'.', ("c".data)⟩, ⟨'.', ("c".data)⟩] =
      ("first".data) ++ spec_remaining (fun _ => false) (fun s => s) 7
        [⟨'.', ("bbb".data)⟩, ⟨'.', ("c".data)⟩, ⟨'.', ("c".data)⟩] :=
  allocator_refines_spec_c2 (fun _ => false) (fun s => s) 12 ("first".data)
    [⟨'.', ("bbb".data)⟩, ⟨'.', ("c".data)⟩, ⟨'.', ("c".data)⟩] (by decide)

/-- C3: every truncation in `new_candidate_filename` goes through
`take_chars_within`, which keeps a prefix of whole characters within the
byte budget and stops exactly before the first character that would
overflow the remaining budget; in this scalar-value model the output is
therefore always a sequence of whole Unicode scalars, i.e. valid UTF-8.
The second conjunct records that the leading-component truncation branch of
the allocator is literally `take_chars_within` (the partial-component
branch of `alloc_loop` invokes it definitionally as well). -/
theorem codepoint_safety_c3 :
    (∀ (b : Nat) (s : Str), ∃ rest, s = (take_chars_within b s).2 ++ rest ∧
        utf8Len (take_chars_within b s).2 ≤ b ∧
        (∀ c cs, rest = c :: cs → (take_chars_within b s).1 < c.utf8Size)) ∧
    (∀ (ign : Str → Bool) (nz : Str → Str) (budget : Nat) (first : Str)
        (comps : List SlugComponent),
      budget < utf8Len first →
      allocate_slug ign nz budget first comps = (take_chars_within budget first).2) := by
  constructor
  · intro b s
    obtain ⟨rest, h1, h2⟩ := take_chars_within_decomp s b
    exact ⟨rest, h1, take_chars_within_le b s, h2⟩
  · intro ign nz budget first comps h
    unfold allocate_slug
    rw [if_pos h]

/-- C3 witness: the truncation prefix property evaluated at budget 2 and the
two-byte-per-char string, and the leading-truncation branch at a concrete
oversized leading component. -/
theorem codepoint_safety_c3_witness :
    (∃ rest, (['é', 'é'] : Str) = (take_chars_within 3 ['é', 'é']).2 ++ rest ∧
        utf8Len (take_chars_within 3 ['é', 'é']).2 ≤ 3 ∧
        (∀ c cs, rest = c :: cs → (take_chars_within 3 ['é', 'é']).1 < c.utf8Size)) ∧
    allocate_slug (fun _ => false) (fun s => s) 3 (['é', 'é']) [] =
      (take_chars_within 3 (['é', 'é'])).2 :=
  ⟨codepoint_safety_c3.1 3 ['é', 'é'],
    codepoint_safety_c3.2 (fun _ => false) (fun s => s) 3 ['é', 'é'] [] (by decide)⟩

/-- C4: the extension text is the tail unchanged at retry 0; for a positive
counter it becomes counter-dot-tail when a real extension exists and the
bare counter otherwise (the disambiguator sits immediately before the true
extension); in particular `"a.b.c..d"` yields `"a.b.c..d"` at retry 0 and
`"a.b.c..1.d"` at retry 1. -/
theorem retry_extension_format_c4 :
    (∀ e : Option Str, format_ext 0 e = e) ∧
    (∀ (n : Nat) (t : Str), n ≠ 0 → format_ext n (some t) = some (nat_repr n ++ '.' :: t)) ∧
    (∀ n : Nat, n ≠ 0 → format_ext n none = some (nat_repr n)) ∧
    new_candidate_filename (fun _ => false) (fun _ => none) (fun s => s)
      ("a.b.c..d".data) 0 = ("a.b.c..d".data) ∧
    new_candidate_filename (fun _ => false) (fun _ => none) (fun s => s)
      ("a.b.c..d".data) 1 = ("a.b.c..1.d".data) :=
  ⟨fun e => by cases e <;> simp [format_ext],
    fun n t hn => by simp [format_ext, hn],
    fun n hn => by simp [format_ext, hn],
    by decide, by decide⟩

/-- C4 witness: the two general formatting clauses instantiated at counter 2
and tail `"txt"`. -/
theorem retry_extension_format_c4_witness :
    format_ext 0 (some ("txt".data)) = some ("txt".data) ∧
    format_ext 2 (some ("txt".data)) = some (nat_repr 2 ++ '.' :: ("txt".data)) ∧
    format_ext 2 none = some (nat_repr 2) :=
  ⟨retry_extension_format_c4.1 (some ("txt".data)),
    retry_extension_format_c4.2.1 2 ("txt".data) (by decide),
    retry_extension_format_c4.2.2.1 2 (by decide)⟩

/-- C5 counterexample: the claim that candidates for retry counters 0, 1,
2, … are pairwise distinct fails on the code.  For the 255-byte filename
`"a"*250 ++ ".1.xx"` the retry-0 candidate keeps the trailing `.1`
component inside the slug, while the retry-1 candidate spends its two
missing budget bytes and instead carries the counter `1` in the extension:
both come out as the identical string `"a"*250 ++ ".1.xx"` (the counter is
fully represented in the retry-1 candidate, so the budget proviso of the
claim is met). -/
theorem retry_distinct_c5_counterexample :
    new_candidate_filename (fun _ => false) (fun _ => none) (fun s => s)
      (List.replicate 250 'a' ++ ['.', '1', '.', 'x', 'x']) 0 =
    new_candidate_filename (fun _ => false) (fun _ => none) (fun s => s)
      (List.replicate 250 'a' ++ ['.', '1', '.', 'x', 'x']) 1 := by
  set_option maxRecDepth 100000 in decide

/-- C5 (amended): for the same filename, ignored-tag set, conversion map and
normaliser, the candidates for two distinct *positive* usize retry counters
are distinct strings: after the shared true-extension suffix is stripped,
the text after the last remaining dot is exactly the decimal counter. -/
theorem retry_distinct_c5_amended (ign : Str → Bool) (conv : Str → Option Str)
    (nz : Str → Str) (f : Str) (m n : Nat) (hm : 0 < m) (hn : 0 < n)
    (hm64 : m < 2 ^ 64) (hn64 : n < 2 ^ 64) (hmn : m ≠ n) :
    new_candidate_filename ign conv nz f m ≠ new_candidate_filename ign conv nz f n := by
  intro heq
  obtain ⟨A1, e1⟩ := cand_pos_decomp ign conv nz f m (by omega)
  obtain ⟨A2, e2⟩ := cand_pos_decomp ign conv nz f n (by omega)
  rw [e1, e2] at heq
  have heq2 := List.append_cancel_right heq
  have h1 := after_last_dot_append A1 (nat_repr m) (nat_repr_no_dot m)
  rw [heq2, after_last_dot_append A2 (nat_repr n) (nat_repr_no_dot n)] at h1
  exact hmn (nat_repr_inj m n hm hn h1.symm)

/-- C5 witness: distinctness of the retry-1 and retry-2 candidates for the
filename `"a"`. -/
theorem retry_distinct_c5_witness :
    new_candidate_filename (fun _ => false) (fun _ => none) (fun s => s) ("a".data) 1 ≠
    new_candidate_filename (fun _ => false) (fun _ => none) (fun s => s) ("a".data) 2 :=
  retry_distinct_c5_amended (fun _ => false) (fun _ => none) (fun s => s) ("a".data) 1 2
    (by decide) (by decide) (by decide) (by decide) (by decide)

/-- C6: a final dot-separated tail longer than 5 bytes is not treated as an
extension: the split folds it back, leaving the whole filename as the slug
with no extension, and at retry 0 the budget step then reserves nothing
(the full 255 bytes go to the slug).  No `ExtensionTooLong`-style error
exists anywhere in the model (the error enumeration `RenameError` has the
single variant `filenameNotFound`), matching lib.rs 25-29. -/
theorem overlong_tail_folded_c6 (a b : Str) (hb : ∀ c ∈ b, (c == '.') = false)
    (hlen : N_MAX_EXTENSION_BYTES < utf8Len b) :
    split_ext (a ++ '.' :: b) = (none, a ++ '.' :: b) ∧
    budget_slug_ext (a ++ '.' :: b) 0 = (N_FILENAME_BYTES, a ++ '.' :: b, []) := by
  have h1 := split_ext_overlong a b hb hlen
  refine ⟨h1, ?_⟩
  simp [budget_slug_ext, h1, format_ext]

/-- C6 witness: the fold evaluated at `"name.toolong"`. -/
theorem overlong_tail_folded_c6_witness :
    split_ext (("name".data) ++ '.' :: ("toolong".data)) =
      (none, ("name".data) ++ '.' :: ("toolong".data)) ∧
    budget_slug_ext (("name".data) ++ '.' :: ("toolong".data)) 0 =
      (N_FILENAME_BYTES, ("name".data) ++ '.' :: ("toolong".data), []) :=
  overlong_tail_folded_c6 ("name".data) ("toolong".data) (by decide) (by decide)

/-- C7: a filename of at most 255 UTF-8 bytes moved into the same directory
(no explicit destination) is returned unchanged with an empty effect trace —
in particular the injected existence predicate is never invoked, for any
predicate. -/
theorem short_name_same_dir_unchanged_c7 (ign : Str → Bool) (conv : Str → Option Str)
    (nz : Str → Str) (ex : Str → Bool) (f : Str) (fuel : Nat)
    (h : utf8Len f ≤ N_FILENAME_BYTES) :
    new_filename_impl ign conv nz ex (some f) false fuel = (DriverOutcome.ok f, []) := by
  simp [new_filename_impl, h]

/-- C7 witness: the fast path evaluated at `"a.b.c.txt"` under an
everywhere-true existence predicate. -/
theorem short_name_same_dir_unchanged_c7_witness :
    new_filename_impl (fun _ => false) (fun _ => none) (fun s => s) (fun _ => true)
      (some ("a.b.c.txt".data)) false 3 = (DriverOutcome.ok ("a.b.c.txt".data), []) :=
  short_name_same_dir_unchanged_c7 (fun _ => false) (fun _ => none) (fun s => s)
    (fun _ => true) ("a.b.c.txt".data) 3 (by decide)

/-- C8: a remaining component whose normalised (converted) tag the
ignored-tag set contains contributes the empty string to its output slot,
for every budget, component list and position — it is skipped before any
budget or emission step, so it never appears in the slug that
`new_candidate_filename` assembles from these slots (lib.rs 180-182,
213-216). -/
theorem ignored_tag_excluded_c8 (ign : Str → Bool) (nz : Str → Str) (budget : Nat)
    (comps : List SlugComponent) (i : Nat)
    (hig : ign (nz ((comps.getD i ⟨'.', []⟩).tag)) = true) :
    (alloc_slots ign nz budget comps).getD i [] = [] := by
  unfold alloc_slots
  rw [alloc_loop_ignored_slot ign nz comps i hig]
  exact getD_replicate_empty _ _

/-- C8 witness: with the tag `"b"` ignored, its slot stays empty under a
generous budget. -/
theorem ignored_tag_excluded_c8_witness :
    (alloc_slots (fun t => t == ("b".data)) (fun s => s) 100
      [⟨'.', ("b".data)⟩, ⟨'.', ("c".data)⟩]).getD 0 [] = [] :=
  ignored_tag_excluded_c8 (fun t => t == ("b".data)) (fun s => s) 100
    [⟨'.', ("b".data)⟩, ⟨'.', ("c".data)⟩] 0 (by decide)

/-- C9 counterexample: the claim that `new_filename_impl` performs no
filesystem effect other than the injected existence predicate fails on the
code: lib.rs 81 calls `fs::create_dir_all(&dst_dir)` in every retry-loop
iteration.  Concretely, a 256-byte filename entering the loop produces a
`createDirAll` effect before its first existence check. -/
theorem no_fs_effects_c9_counterexample :
    FsEffect.createDirAll ∈ (new_filename_impl (fun _ => false) (fun _ => none) (fun s => s)
      (fun _ => false) (some (List.replicate 256 'a')) false 1).2 := by
  set_option maxRecDepth 100000 in decide

/-- C9 (amended): during name selection the filesystem effects of
`new_filename_impl` are exactly: at most one pre-loop existence check of the
original name, then, per retry iteration, one `create_dir_all` of the
destination directory followed by one existence check of that iteration's
candidate — and nothing else. -/
theorem fs_effect_trace_c9_amended (ign : Str → Bool) (conv : Str → Option Str)
    (nz : Str → Str) (ex : Str → Bool) (f : Str) (dg : Bool) (fuel : Nat) :
    ∃ pre tr, (new_filename_impl ign conv nz ex (some f) dg fuel).2 = pre ++ tr ∧
      (pre = [] ∨ pre = [FsEffect.checkExists f]) ∧
      LoopTraceShape (fun k => new_candidate_filename ign conv nz f k) 0 tr := by
  simp only [new_filename_impl]
  by_cases h1 : utf8Len f ≤ N_FILENAME_BYTES
  · rw [if_pos h1]
    cases dg with
    | false => exact ⟨[], [], rfl, Or.inl rfl, LoopTraceShape.nil 0⟩
    | true =>
      by_cases h2 : ex f = true
      · refine ⟨[FsEffect.checkExists f], (driver_loop ign conv nz ex f fuel 0).2, ?_,
          Or.inr rfl, driver_loop_trace_shape ign conv nz ex f fuel 0⟩
        simp [h2]
      · refine ⟨[FsEffect.checkExists f], [], ?_, Or.inr rfl, LoopTraceShape.nil 0⟩
        simp [h2]
  · rw [if_neg h1]
    exact ⟨[], (driver_loop ign conv nz ex f fuel 0).2, rfl, Or.inl rfl,
      driver_loop_trace_shape ign conv nz ex f fuel 0⟩

/-- C10: a short filename that already exists in an explicitly given
destination is neither returned unchanged nor an error: any returned name is
one the existence predicate rejects (hence differs from the original), the
driver never returns the error outcome for a present filename, and
concretely `"a.b.c.txt"` colliding once yields `"a.b.c.1.txt"` after one
pre-loop check and two loop iterations. -/
theorem collision_disambiguates_c10 :
    (∀ (ign : Str → Bool) (conv : Str → Option Str) (nz : Str → Str) (ex : Str → Bool)
        (f : Str) (fuel : Nat) (c : Str),
      utf8Len f ≤ N_FILENAME_BYTES → ex f = true →
      (new_filename_impl ign conv nz ex (some f) true fuel).1 = DriverOutcome.ok c →
      ex c = false ∧ c ≠ f) ∧
    (∀ (ign : Str → Bool) (conv : Str → Option Str) (nz : Str → Str) (ex : Str → Bool)
        (f : Str) (dg : Bool) (fuel : Nat) (e : RenameError),
      (new_filename_impl ign conv nz ex (some f) dg fuel).1 ≠ DriverOutcome.err e) ∧
    new_filename_impl (fun _ => false) (fun _ => none) (fun s => s)
      (fun s => s == ("a.b.c.txt".data)) (some ("a.b.c.txt".data)) true 2 =
      (DriverOutcome.ok ("a.b.c.1.txt".data),
        [FsEffect.checkExists ("a.b.c.txt".data), FsEffect.createDirAll,
         FsEffect.checkExists ("a.b.c.txt".data), FsEffect.createDirAll,
         FsEffect.checkExists ("a.b.c.1.txt".data)]) := by
  refine ⟨?_, ?_, by decide⟩
  · intro ign conv nz ex f fuel c hlen hex hok
    simp only [new_filename_impl, if_pos hlen, Bool.not_true, Bool.false_eq_true,
      if_false, hex, Bool.not_eq_true'] at hok
    have hc := driver_loop_ok_not_exists ign conv nz ex f fuel 0 c hok
    refine ⟨hc, ?_⟩
    intro hcf
    rw [hcf, hex] at hc
    cases hc
  · intro ign conv nz ex f dg fuel e
    simp only [new_filename_impl]
    by_cases h1 : utf8Len f ≤ N_FILENAME_BYTES
    · rw [if_pos h1]
      cases dg with
      | false => intro h; cases h
      | true =>
        by_cases h2 : ex f = true
        · simp only [h2]
          intro h
          exact driver_loop_ne_err ign conv nz ex f fuel 0 e (by simpa using h)
        · simp only [h2]
          intro h
          simp at h
    · rw [if_neg h1]
      exact driver_loop_ne_err ign conv nz ex f fuel 0 e

/-- C10 witness: the general disambiguation clause applied at the concrete
collision scenario of the third conjunct. -/
theorem collision_disambiguates_c10_witness :
    (fun s => s == ("a.b.c.txt".data)) ("a.b.c.1.txt".data) = false ∧
    ("a.b.c.1.txt".data) ≠ ("a.b.c.txt".data) :=
  collision_disambiguates_c10.1 (fun _ => false) (fun _ => none) (fun s => s)
    (fun s => s == ("a.b.c.txt".data)) ("a.b.c.txt".data) 2 ("a.b.c.1.txt".data)
    (by decide) (by decide) (by decide)
